import Mathlib

/-!
Verification of the topic-scoped pub/sub broker (`main.py`).

The broker's shared state is `topics`, a Python dict mapping topic name to
an entry `{"users": dict username ↦ websocket, "messages": list}`.  Python
dicts are modelled as insertion-ordered association lists with unique keys
(`dinsert` updates in place or appends, `derase` removes the entry,
`dmodify` rewrites the value at a key).  Websocket handles are opaque and
modelled as `Nat`.  Network sends are modelled as effects; a per-recipient
send-failure oracle stands in for broken connections.
-/

namespace Broker

/-- Python dict lookup `d.get(k)` / `d[k]` on an association list. -/
def alookup {β : Type _} (l : List (String × β)) (k : String) : Option β :=
  match l with
  | [] => none
  | (k', v) :: rest => if k' = k then some v else alookup rest k

/-- Python dict assignment `d[k] = v`: update in place if the key exists,
otherwise append (dicts preserve insertion order). -/
def dinsert {β : Type _} (l : List (String × β)) (k : String) (v : β) :
    List (String × β) :=
  match l with
  | [] => [(k, v)]
  | (k', v') :: rest =>
    if k' = k then (k', v) :: rest else (k', v') :: dinsert rest k v

/-- Python dict deletion `d.pop(k, None)`: drop the entry with key `k`
(dicts have unique keys, so dropping the first occurrence suffices). -/
def derase {β : Type _} (l : List (String × β)) (k : String) :
    List (String × β) :=
  match l with
  | [] => []
  | (k', v') :: rest =>
    if k' = k then rest else (k', v') :: derase rest k

/-- In-place mutation of the value stored at key `k` (as done by Python code
that mutates `d[k]` through a reference). -/
def dmodify {β : Type _} (l : List (String × β)) (k : String) (f : β → β) :
    List (String × β) :=
  match l with
  | [] => []
  | (k', v') :: rest =>
    if k' = k then (k', f v') :: rest else (k', v') :: dmodify rest k f

/-- The keys of an association list. -/
def dkeys {β : Type _} (l : List (String × β)) : List String :=
  l.map Prod.fst

/-- A stored chat message: `{"id": ..., "username": ..., "message": ...,
"timestamp": ...}` as built by `make_message_payload` plus the `"id"` key. -/
structure Msg where
  id : String
  username : String
  message : String
  timestamp : Nat
deriving DecidableEq, Repr

/-- Opaque websocket handle. -/
abbrev ConnId := Nat

/-- One topic's entry: `{"users": {username: websocket}, "messages": [...]}`. -/
structure TopicEntry where
  users : List (String × ConnId)
  messages : List Msg
deriving DecidableEq, Repr

/-- The global registry `topics`. -/
abbrev Topics := List (String × TopicEntry)

/-- `MESSAGE_EXPIRY_SECONDS = 30`. -/
def MESSAGE_EXPIRY_SECONDS : Nat := 30

/-- `add_user_to_topic`: create the topic entry if absent, then set
`topics[topic]["users"][username] = websocket`. -/
def add_user_to_topic (ts : Topics) (topic username : String) (ws : ConnId) :
    Topics :=
  let ts1 := if (alookup ts topic).isSome then ts
             else dinsert ts topic { users := [], messages := [] }
  dmodify ts1 topic (fun e => { e with users := dinsert e.users username ws })

/-- `remove_user_from_topic`: if the topic exists, pop the username from its
users; if the users dict is then empty, pop the topic itself. -/
def remove_user_from_topic (ts : Topics) (topic username : String) : Topics :=
  match alookup ts topic with
  | none => ts
  | some entry =>
    let users := derase entry.users username
    if users.isEmpty then derase ts topic
    else dmodify ts topic (fun e => { e with users := users })

/-- `expire_message` (the part that runs after the `asyncio.sleep`): if the
topic still exists, keep only the messages whose id differs from
`message_id`; otherwise return with no change. -/
def expire_message (ts : Topics) (topic message_id : String) : Topics :=
  match alookup ts topic with
  | none => ts
  | some _ =>
    dmodify ts topic
      (fun e => { e with messages := e.messages.filter (fun m => m.id ≠ message_id) })

/-- The recipient snapshot taken by `broadcast_to_topic` under the lock:
every user of the topic whose name differs from `exclude_username`
(`exclude_username = None` keeps everyone, since `u != None` is true for
every string); an absent topic yields no recipients. -/
def broadcast_recipients (ts : Topics) (topic : String)
    (exclude_username : Option String) : List (String × ConnId) :=
  match alookup ts topic with
  | none => []
  | some entry =>
    entry.users.filter (fun p =>
      match exclude_username with
      | none => true
      | some e => p.1 ≠ e)

/-- The send loop of `broadcast_to_topic`: each recipient is attempted
independently; a failed send (oracle `sendOk` returns `false`) is logged and
ignored, so every recipient is still attempted and no exception escapes. -/
def broadcast_attempts (ts : Topics) (topic : String)
    (exclude_username : Option String) (sendOk : ConnId → Bool) :
    List (String × Bool) :=
  (broadcast_recipients ts topic exclude_username).map
    (fun p => (p.1, sendOk p.2))

/-!
### Decimal rendering

`ensure_unique_username` builds candidate names `f"{base_username}#{i}"`.
The decimal rendering of `i` is injective (proved below via a digit-string
evaluator), so at most `existing.length` candidates can already be taken;
this bounds the Python `while` loop and justifies the fuel used in
`findFrom`.
-/

/-- Evaluate a decimal digit string back to the number it denotes. -/
def decVal (l : List Char) : Nat :=
  l.foldl (fun acc c => acc * 10 + (c.toNat - 48)) 0

/-- The candidate name `f"{base_username}#{i}"`. -/
def candidate (base : String) (i : Nat) : String := base ++ "#" ++ Nat.repr i

/-- The `i = 2; while f"{base_username}#{i}" in existing: i += 1` loop of
`ensure_unique_username`.  The Python loop carries no fuel; it terminates
because at most `existing.length` candidates can be taken
(`exists_free_candidate`), so the fuel `existing.length + 1` supplied by
`ensure_unique_username` is never exhausted (`findFrom_spec`). -/
def findFrom (existing : List String) (base : String) : Nat → Nat → Nat
  | i, 0 => i
  | i, fuel + 1 =>
    if candidate base i ∈ existing then findFrom existing base (i + 1) fuel else i

/-- `ensure_unique_username`: if the topic does not exist or the requested
name is not already a member name, return it unchanged; otherwise append
`#i` for the first free suffix `i` counting up from 2. -/
def ensure_unique_username (ts : Topics) (topic base_username : String) : String :=
  match alookup ts topic with
  | none => base_username
  | some entry =>
    let existing := dkeys entry.users
    if base_username ∈ existing then
      candidate base_username (findFrom existing base_username 2 (existing.length + 1))
    else base_username

/-!
### Frames, payloads, and the session loop
-/

/-- JSON values as returned by `json.loads` (numbers restricted to
integers; no claim involves floats). -/
inductive Json where
  | null
  | bool (b : Bool)
  | num (n : Int)
  | str (s : String)
  | arr (elts : List Json)
  | obj (fields : List (String × Json))

mutual

/-- Python `repr()` on a value produced by `json.loads` (escaping of quote
characters inside strings is not modelled; no claim depends on it). -/
def pyRepr : Json → String
  | .null => "None"
  | .bool true => "True"
  | .bool false => "False"
  | .num n => n.repr
  | .str s => "\x27" ++ s ++ "\x27"
  | .arr elts => "[" ++ String.intercalate ", " (pyReprList elts) ++ "]"
  | .obj fields => "\x7b" ++ String.intercalate ", " (pyReprFields fields) ++ "\x7d"

def pyReprList : List Json → List String
  | [] => []
  | j :: js => pyRepr j :: pyReprList js

def pyReprFields : List (String × Json) → List String
  | [] => []
  | (k, v) :: fs => ("\x27" ++ k ++ "\x27: " ++ pyRepr v) :: pyReprFields fs

end

/-- Python `str()` on a value produced by `json.loads`: strings render as
themselves, everything else as its `repr()`. -/
def pyStr : Json → String
  | .str s => s
  | j => pyRepr j

/-- Python whitespace test for `str.strip()` (the ASCII whitespace
characters; further Unicode whitespace is not modelled — no claim depends
on it). -/
def pyWs (c : Char) : Bool :=
  c = ' ' || c = '\t' || c = '\n' || c = '\r' || c = '\x0b' || c = '\x0c'

/-- Python `str.strip()`: drop leading and trailing whitespace. -/
def pyStrip (s : String) : String :=
  ⟨((s.data.dropWhile pyWs).reverse.dropWhile pyWs).reverse⟩

/-- Outbound wire payloads (serialization by `json.dumps` is external). -/
inductive OutMsg where
  | joined (username topic : String)
  | systemNotice (message : String) (timestamp : Nat)
  | chat (username message : String) (timestamp : Nat) (id : String)
  | delivered (message_id : String) (timestamp : Nat)
  | activeTopics (lines : List String)
  | errorMsg (error : String)
deriving DecidableEq, Repr

/-- Observable actions of one loop iteration: a `send_text` on the
session socket itself, a `broadcast_to_topic` call, or a
`create_task(expire_message(...))`. -/
inductive Eff where
  | sendSelf (p : OutMsg)
  | bcast (topic : String) (p : OutMsg) (exclude_username : Option String)
  | schedule (topic message_id : String) (delay : Nat)
deriving DecidableEq, Repr

/-- The check `isinstance(j, dict) and "message" in j`, returning
`j["message"]` when it holds. -/
def getMessageField : Json → Option Json
  | .obj fields => alookup fields "message"
  | _ => none

/-- Lines 177–195 of `main.py`: build the message payload (fresh uuid,
current time), append it to the topic entry if the topic still exists,
broadcast it to the other members, acknowledge to the sender, and schedule
expiry after `MESSAGE_EXPIRY_SECONDS`. -/
def sendChat (ts : Topics) (topic username body : String) (now : Nat)
    (freshId : String) : Topics × List Eff :=
  let payload : Msg :=
    { id := freshId, username := username, message := body, timestamp := now }
  let ts2 := match alookup ts topic with
             | some _ => dmodify ts topic
                 (fun e => { e with messages := e.messages ++ [payload] })
             | none => ts
  (ts2, [.bcast topic (.chat username body now freshId) (some username),
         .sendSelf (.delivered freshId now),
         .schedule topic freshId MESSAGE_EXPIRY_SECONDS])

/-- One iteration of the `ACTIVE` receive loop (lines 145–195): dispatch an
inbound frame.  `parseJson` models `json.loads` (`none` = parse raises). -/
def handleFrame (parseJson : String → Option Json) (ts : Topics)
    (topic username msg_text : String) (now : Nat) (freshId : String) :
    Topics × List Eff :=
  if pyStrip msg_text = "/list" then
    (ts, [.sendSelf (.activeTopics (ts.map fun p =>
      p.1 ++ " (" ++ Nat.repr p.2.users.length ++ " users)"))])
  else
    match parseJson msg_text with
    | some j =>
      match getMessageField j with
      | some v => sendChat ts topic username (pyStr v) now freshId
      | none =>
        (ts, [.sendSelf (.errorMsg "JSON payload must contain \x27message\x27 field")])
    | none => sendChat ts topic username msg_text now freshId

/-- The `finally:` cleanup of `websocket_endpoint` (lines 201–207).
`topic?` and `username?` are the session variables, `none` until the join
handshake assigns them.  The guard mirrors the Python truthiness test
`if topic and username:`, which is false when either variable is still
`None` — and also when either is the empty string. -/
def sessionCleanup (ts : Topics) (topic? username? : Option String)
    (now : Nat) : Topics × List Eff :=
  match topic?, username? with
  | some topic, some username =>
    if topic ≠ "" ∧ username ≠ "" then
      (remove_user_from_topic ts topic username,
       [.bcast topic (.systemNotice (username ++ " left the topic") now) none])
    else (ts, [])
  | _, _ => (ts, [])

/-!
### Timed expiry

A deferred `expire_message` task fires `delay` seconds after its creation.
`runTasksUpTo t` gives the registry as seen by a query at time `t`: every
scheduled task whose fire time has passed has run.
-/

/-- A scheduled expiry: `create_task(expire_message(topic, message_id,
delay))` issued at time `t0` fires at `t0 + delay`. -/
structure ExpiryTask where
  fireTime : Nat
  topic : String
  message_id : String
deriving DecidableEq, Repr

/-- Run every task whose fire time is at most `t`. -/
def runTasksUpTo (t : Nat) (tasks : List ExpiryTask) (ts : Topics) : Topics :=
  tasks.foldl (fun acc task =>
    if task.fireTime ≤ t then expire_message acc task.topic task.message_id
    else acc) ts

/-!
### Registry invariant
-/

/-- Python dict well-formedness: keys are unique. -/
def dictInv {β : Type _} (l : List (String × β)) : Prop := (dkeys l).Nodup

/-- The registry invariant: `topics` is a well-formed dict and every present
topic has at least one member. -/
def registryInv (ts : Topics) : Prop :=
  dictInv ts ∧ ∀ p ∈ ts, p.2.users ≠ []

/-!
### Concrete states used in witnesses and counterexamples
-/

/-- A registry with topics `"sports"` (members `"bob"`, `"bob#2"`) and
`"news"` (member `"carol"`). -/
def exReg : Topics :=
  [("sports", { users := [("bob", 0), ("bob#2", 1)], messages := [] }),
   ("news", { users := [("carol", 2)], messages := [] })]

/-- A topic entry whose member names are `"alice"` and `"alice#2"`. -/
def exAliceEntry : TopicEntry :=
  { users := [("alice", 5), ("alice#2", 6)], messages := [] }

/-- A registry whose topic `"t"` has members `"alice"` and `"alice#2"`. -/
def exAliceReg : Topics := [("t", exAliceEntry)]

/-- A registry whose topic `"t"` has the single member `"alice"`. -/
def exAliceReg1 : Topics := [("t", { users := [("alice", 5)], messages := [] })]

/-- A registry whose only topic is the empty-string topic, with two
members — the state after a client joins with `topic = ""`. -/
def exEmptyNameReg : Topics :=
  [("", { users := [("bob", 0), ("carol", 1)], messages := [] })]

/-- A stored message and a registry holding it, for the expiry witness. -/
def exMsg : Msg := { id := "m1", username := "bob", message := "hi", timestamp := 50 }

/-- Registry with one topic holding `exMsg`. -/
def exMsgReg : Topics :=
  [("sports", { users := [("bob", 0)], messages := [exMsg] })]

/-!
### Lemmas
-/

theorem digitChar_toNat (d : Nat) (h : d < 10) : (Nat.digitChar d).toNat = 48 + d := by
  interval_cases d <;> rfl

theorem toDigitsCore_eq_append (n : Nat) : ∀ (f : Nat) (ds : List Char), n < f →
    Nat.toDigitsCore 10 f n ds = Nat.toDigitsCore 10 f n [] ++ ds := by
  induction n using Nat.strong_induction_on with
  | _ n ih =>
    intro f ds hf
    cases f with
    | zero => omega
    | succ f =>
      simp only [Nat.toDigitsCore]
      by_cases h : n / 10 = 0
      · simp [h]
      · simp only [h, if_false]
        have hn0 : 0 < n := by
          rcases Nat.eq_zero_or_pos n with rfl | hp
          · simp at h
          · exact hp
        have hn10 : n / 10 < n := Nat.div_lt_self hn0 (by omega)
        have h1 : n / 10 < f := by omega
        rw [ih (n / 10) hn10 f (Nat.digitChar (n % 10) :: ds) h1,
            ih (n / 10) hn10 f [Nat.digitChar (n % 10)] h1,
            List.append_assoc, List.singleton_append]

theorem decVal_toDigitsCore (n : Nat) : ∀ f, n < f →
    decVal (Nat.toDigitsCore 10 f n []) = n := by
  induction n using Nat.strong_induction_on with
  | _ n ih =>
    intro f hf
    cases f with
    | zero => omega
    | succ f =>
      simp only [Nat.toDigitsCore]
      by_cases h : n / 10 = 0
      · simp only [h, if_true]
        have hlt : n < 10 := by omega
        have hn : n % 10 = n := by omega
        rw [hn]
        simp only [decVal, List.foldl_cons, List.foldl_nil, digitChar_toNat n hlt]
        omega
      · simp only [h, if_false]
        have hn0 : 0 < n := by
          rcases Nat.eq_zero_or_pos n with rfl | hp
          · simp at h
          · exact hp
        have hn10 : n / 10 < n := Nat.div_lt_self hn0 (by omega)
        have h1 : n / 10 < f := by omega
        rw [toDigitsCore_eq_append (n / 10) f [Nat.digitChar (n % 10)] h1]
        have h10 : n % 10 < 10 := Nat.mod_lt _ (by omega)
        simp only [decVal, List.foldl_append, List.foldl_cons, List.foldl_nil]
        have hv := ih (n / 10) hn10 f h1
        simp only [decVal] at hv
        rw [hv, digitChar_toNat _ h10]
        omega

theorem decVal_repr (n : Nat) : decVal (Nat.repr n).data = n := by
  show decVal ((Nat.toDigits 10 n).asString).data = n
  show decVal (Nat.toDigits 10 n) = n
  exact decVal_toDigitsCore n (n + 1) (Nat.lt_succ_self n)

theorem nat_repr_injective : Function.Injective Nat.repr := by
  intro m n h
  have h2 : decVal (Nat.repr m).data = decVal (Nat.repr n).data := by rw [h]
  rwa [decVal_repr, decVal_repr] at h2

theorem candidate_injective (base : String) : Function.Injective (candidate base) := by
  intro i j h
  have hd := congrArg String.data h
  simp only [candidate, String.data_append, List.append_assoc] at hd
  have h1 := List.append_cancel_left hd
  have h2 := List.append_cancel_left h1
  have h3 : decVal (Nat.repr i).data = decVal (Nat.repr j).data := by rw [h2]
  rwa [decVal_repr, decVal_repr] at h3

/-- Among any `existing.length + 1` consecutive candidates, at least one is
not taken (pigeonhole, using injectivity of `candidate base`). -/
theorem exists_free_candidate (existing : List String) (base : String) (start : Nat) :
    ∃ k, k ≤ existing.length ∧ candidate base (start + k) ∉ existing := by
  by_contra hc
  push_neg at hc
  set L := (List.range (existing.length + 1)).map fun k => candidate base (start + k) with hL
  have hsub : L ⊆ existing := by
    intro x hx
    simp only [hL, List.mem_map, List.mem_range] at hx
    obtain ⟨k, hk, rfl⟩ := hx
    exact hc k (by omega)
  have hnd : L.Nodup := by
    refine List.Nodup.map ?_ (List.nodup_range _)
    intro a b hab
    have := candidate_injective base hab
    omega
  have hlen : L.length = existing.length + 1 := by
    simp [hL]
  have hle : L.length ≤ existing.length := by
    calc L.length = L.toFinset.card := (List.toFinset_card_of_nodup hnd).symm
      _ ≤ existing.toFinset.card := Finset.card_le_card (fun x hx => by
          rw [List.mem_toFinset] at *
          exact hsub hx)
      _ ≤ existing.length := existing.toFinset_card_le
  omega

theorem findFrom_spec (existing : List String) (base : String) :
    ∀ (fuel i : Nat), (∃ k, k ≤ fuel ∧ candidate base (i + k) ∉ existing) →
      candidate base (findFrom existing base i fuel) ∉ existing ∧
      i ≤ findFrom existing base i fuel ∧
      ∀ m, i ≤ m → m < findFrom existing base i fuel → candidate base m ∈ existing := by
  intro fuel
  induction fuel with
  | zero =>
    rintro i ⟨k, hk, hfree⟩
    have hk0 : k = 0 := by omega
    subst hk0
    simp only [findFrom]
    refine ⟨by simpa using hfree, le_refl _, fun m h1 h2 => by omega⟩
  | succ fuel ih =>
    rintro i ⟨k, hk, hfree⟩
    simp only [findFrom]
    by_cases hmem : candidate base i ∈ existing
    · rw [if_pos hmem]
      have hk0 : k ≠ 0 := by
        rintro rfl
        simp only [Nat.add_zero] at hfree
        exact hfree hmem
      obtain ⟨k', rfl⟩ : ∃ k', k = k' + 1 := ⟨k - 1, by omega⟩
      have hex : ∃ k2, k2 ≤ fuel ∧ candidate base ((i + 1) + k2) ∉ existing := by
        refine ⟨k', by omega, ?_⟩
        have harith : (i + 1) + k' = i + (k' + 1) := by omega
        rw [harith]
        exact hfree
      obtain ⟨h1, h2, h3⟩ := ih (i + 1) hex
      refine ⟨h1, by omega, fun m hm1 hm2 => ?_⟩
      rcases eq_or_lt_of_le hm1 with rfl | hlt
      · exact hmem
      · exact h3 m (by omega) hm2
    · rw [if_neg hmem]
      exact ⟨hmem, le_refl _, fun m h1 h2 => by omega⟩

theorem alookup_eq_none {β : Type _} (l : List (String × β)) (k : String) :
    alookup l k = none ↔ k ∉ dkeys l := by
  induction l with
  | nil => simp [alookup, dkeys]
  | cons p rest ih =>
    obtain ⟨k', v⟩ := p
    by_cases h : k' = k
    · subst h
      simp [alookup, dkeys]
    · simp [alookup, dkeys, h, ih, Ne.symm h]

theorem mem_of_alookup {β : Type _} {l : List (String × β)} {k : String} {v : β}
    (h : alookup l k = some v) : (k, v) ∈ l := by
  induction l with
  | nil => simp [alookup] at h
  | cons p rest ih =>
    obtain ⟨k', v'⟩ := p
    by_cases hk : k' = k
    · subst hk
      simp [alookup] at h
      subst h
      exact List.mem_cons_self _ _
    · simp [alookup, hk] at h
      exact List.mem_cons_of_mem _ (ih h)

theorem key_mem_dkeys {β : Type _} {l : List (String × β)} {p : String × β}
    (h : p ∈ l) : p.1 ∈ dkeys l := List.mem_map_of_mem Prod.fst h

theorem dictInv_cons {β : Type _} {p : String × β} {rest : List (String × β)} :
    dictInv (p :: rest) ↔ p.1 ∉ dkeys rest ∧ dictInv rest := by
  simp [dictInv, dkeys]

theorem alookup_of_mem {β : Type _} {l : List (String × β)} (hinv : dictInv l)
    {p : String × β} (h : p ∈ l) : alookup l p.1 = some p.2 := by
  induction l with
  | nil => simp at h
  | cons q rest ih =>
    obtain ⟨k', v'⟩ := q
    obtain ⟨hk', hrest⟩ := dictInv_cons.mp hinv
    rcases List.mem_cons.mp h with rfl | h2
    · simp [alookup]
    · have hne : k' ≠ p.1 := by
        intro he
        refine hk' ?_
        rw [show (k', v').1 = p.1 from he]
        exact key_mem_dkeys h2
      simp [alookup, hne, ih hrest h2]

theorem alookup_dinsert_self {β : Type _} (l : List (String × β)) (k : String)
    (v : β) : alookup (dinsert l k v) k = some v := by
  induction l with
  | nil => simp [dinsert, alookup]
  | cons p rest ih =>
    obtain ⟨k', v'⟩ := p
    by_cases h : k' = k
    · subst h
      simp [dinsert, alookup]
    · simp [dinsert, alookup, h, ih]

theorem alookup_dinsert_ne {β : Type _} (l : List (String × β)) {k k2 : String}
    (v : β) (h : k2 ≠ k) : alookup (dinsert l k v) k2 = alookup l k2 := by
  induction l with
  | nil => simp [dinsert, alookup, Ne.symm h]
  | cons p rest ih =>
    obtain ⟨k', v'⟩ := p
    by_cases hk : k' = k
    · subst hk
      simp [dinsert, alookup, Ne.symm h]
    · by_cases hk2 : k' = k2
      · subst hk2
        simp [dinsert, alookup, hk]
      · simp [dinsert, alookup, hk, hk2, ih]

theorem dkeys_cons {β : Type _} (p : String × β) (l : List (String × β)) :
    dkeys (p :: l) = p.1 :: dkeys l := rfl

theorem mem_dkeys_dinsert {β : Type _} (l : List (String × β)) (k k2 : String)
    (v : β) : k2 ∈ dkeys (dinsert l k v) ↔ k2 ∈ dkeys l ∨ k2 = k := by
  induction l with
  | nil => simp [dinsert, dkeys]
  | cons p rest ih =>
    obtain ⟨k', v'⟩ := p
    by_cases h : k' = k
    · subst h
      rw [show dinsert ((k', v') :: rest) k' v = (k', v) :: rest from by simp [dinsert]]
      simp only [dkeys_cons, List.mem_cons]
      tauto
    · rw [show dinsert ((k', v') :: rest) k v = (k', v') :: dinsert rest k v from by
        simp [dinsert, h]]
      simp only [dkeys_cons, List.mem_cons, ih]
      tauto

theorem dictInv_dinsert {β : Type _} {l : List (String × β)} (k : String) (v : β)
    (hinv : dictInv l) : dictInv (dinsert l k v) := by
  induction l with
  | nil => simp [dinsert, dictInv, dkeys]
  | cons p rest ih =>
    obtain ⟨k', v'⟩ := p
    obtain ⟨hk', hrest⟩ := dictInv_cons.mp hinv
    by_cases h : k' = k
    · subst h
      rw [show dinsert ((k', v') :: rest) k' v = (k', v) :: rest from by simp [dinsert]]
      exact dictInv_cons.mpr ⟨hk', hrest⟩
    · rw [show dinsert ((k', v') :: rest) k v = (k', v') :: dinsert rest k v from by
        simp [dinsert, h]]
      refine dictInv_cons.mpr ⟨?_, ih hrest⟩
      intro hmem
      rcases (mem_dkeys_dinsert rest k k' v).mp hmem with hm | rfl
      · exact hk' hm
      · exact h rfl

theorem dinsert_ne_nil {β : Type _} (l : List (String × β)) (k : String) (v : β) :
    dinsert l k v ≠ [] := by
  cases l with
  | nil => simp [dinsert]
  | cons p rest =>
    obtain ⟨k', v'⟩ := p
    by_cases h : k' = k <;> simp [dinsert, h]

theorem alookup_dmodify_self {β : Type _} (l : List (String × β)) (k : String)
    (f : β → β) : alookup (dmodify l k f) k = (alookup l k).map f := by
  induction l with
  | nil => simp [dmodify, alookup]
  | cons p rest ih =>
    obtain ⟨k', v'⟩ := p
    by_cases h : k' = k
    · subst h
      simp [dmodify, alookup]
    · simp [dmodify, alookup, h, ih]

theorem alookup_dmodify_ne {β : Type _} (l : List (String × β)) {k k2 : String}
    (f : β → β) (h : k2 ≠ k) : alookup (dmodify l k f) k2 = alookup l k2 := by
  induction l with
  | nil => simp [dmodify]
  | cons p rest ih =>
    obtain ⟨k', v'⟩ := p
    by_cases hk : k' = k
    · subst hk
      simp [dmodify, alookup, Ne.symm h]
    · by_cases hk2 : k' = k2
      · subst hk2
        simp [dmodify, alookup, hk]
      · simp [dmodify, alookup, hk, hk2, ih]

theorem dkeys_dmodify {β : Type _} (l : List (String × β)) (k : String)
    (f : β → β) : dkeys (dmodify l k f) = dkeys l := by
  induction l with
  | nil => rfl
  | cons p rest ih =>
    obtain ⟨k', v'⟩ := p
    by_cases h : k' = k
    · subst h
      rw [show dmodify ((k', v') :: rest) k' f = (k', f v') :: rest from by
        simp [dmodify]]
      rfl
    · rw [show dmodify ((k', v') :: rest) k f = (k', v') :: dmodify rest k f from by
        simp [dmodify, h], dkeys_cons, dkeys_cons, ih]

theorem dictInv_dmodify {β : Type _} {l : List (String × β)} (k : String)
    (f : β → β) (hinv : dictInv l) : dictInv (dmodify l k f) := by
  unfold dictInv
  rw [dkeys_dmodify]
  exact hinv

theorem alookup_derase_self {β : Type _} {l : List (String × β)} (k : String)
    (hinv : dictInv l) : alookup (derase l k) k = none := by
  induction l with
  | nil => simp [derase, alookup]
  | cons p rest ih =>
    obtain ⟨k', v'⟩ := p
    obtain ⟨hk', hrest⟩ := dictInv_cons.mp hinv
    by_cases h : k' = k
    · subst h
      simp only [derase, if_pos rfl]
      exact (alookup_eq_none rest k').mpr hk'
    · simp [derase, alookup, h, ih hrest]

theorem alookup_derase_ne {β : Type _} (l : List (String × β)) {k k2 : String}
    (h : k2 ≠ k) : alookup (derase l k) k2 = alookup l k2 := by
  induction l with
  | nil => simp [derase]
  | cons p rest ih =>
    obtain ⟨k', v'⟩ := p
    by_cases hk : k' = k
    · subst hk
      simp [derase, alookup, Ne.symm h]
    · by_cases hk2 : k' = k2
      · subst hk2
        simp [derase, alookup, hk]
      · simp [derase, alookup, hk, hk2, ih]

theorem dkeys_derase_sublist {β : Type _} (l : List (String × β)) (k : String) :
    (dkeys (derase l k)).Sublist (dkeys l) := by
  induction l with
  | nil => simp [derase]
  | cons p rest ih =>
    obtain ⟨k', v'⟩ := p
    by_cases h : k' = k
    · subst h
      rw [show derase ((k', v') :: rest) k' = rest from by simp [derase], dkeys_cons]
      exact List.sublist_cons_self _ _
    · rw [show derase ((k', v') :: rest) k = (k', v') :: derase rest k from by
        simp [derase, h], dkeys_cons, dkeys_cons]
      exact List.Sublist.cons₂ _ ih

theorem dictInv_derase {β : Type _} {l : List (String × β)} (k : String)
    (hinv : dictInv l) : dictInv (derase l k) :=
  List.Nodup.sublist (dkeys_derase_sublist l k) hinv

theorem dmodify_eq_self {β : Type _} (l : List (String × β)) (k : String)
    (f : β → β) (h : ∀ v, alookup l k = some v → f v = v) : dmodify l k f = l := by
  induction l with
  | nil => rfl
  | cons p rest ih =>
    obtain ⟨k', v'⟩ := p
    by_cases hk : k' = k
    · subst hk
      rw [show dmodify ((k', v') :: rest) k' f = (k', f v') :: rest from by
        simp [dmodify]]
      rw [h v' (by simp [alookup])]
    · rw [show dmodify ((k', v') :: rest) k f = (k', v') :: dmodify rest k f from by
        simp [dmodify, hk]]
      rw [ih (fun v hv => h v (by simp [alookup, hk, hv]))]

/-!
### The claims
-/

/-- C5: `broadcast_to_topic` takes as recipients every current member of
the topic except the excluded username and never the excluded one; every
recipient is attempted independently of the other sends succeeding or
failing (the failure oracle `sendOk`), so one broken connection does not
abort delivery to the rest and nothing escapes; an absent topic yields no
recipients and no attempts. -/
theorem broadcast_excludes_and_tolerates_failures
    (ts : Topics) (topic u : String) (sendOk : ConnId → Bool) :
    (∀ e, alookup ts topic = some e →
      ∀ p, p ∈ broadcast_recipients ts topic (some u) ↔ p ∈ e.users ∧ p.1 ≠ u) ∧
    (∀ p ∈ broadcast_recipients ts topic (some u), p.1 ≠ u) ∧
    (∀ p ∈ broadcast_recipients ts topic (some u),
      (p.1, sendOk p.2) ∈ broadcast_attempts ts topic (some u) sendOk) ∧
    (alookup ts topic = none →
      broadcast_recipients ts topic (some u) = [] ∧
      broadcast_attempts ts topic (some u) sendOk = []) := by
  refine ⟨?_, ?_, ?_, ?_⟩
  · intro e he p
    simp [broadcast_recipients, he, List.mem_filter]
  · intro p hp
    rcases h : alookup ts topic with _ | e
    · simp [broadcast_recipients, h] at hp
    · simp [broadcast_recipients, h, List.mem_filter] at hp
      exact hp.2
  · intro p hp
    exact List.mem_map_of_mem _ hp
  · intro h
    simp [broadcast_recipients, broadcast_attempts, h]

/-- C5 witness: in `exReg`, broadcasting on `"sports"` excluding `"bob"`
reaches exactly `"bob#2"`. -/
theorem broadcast_excludes_witness :
    (("bob#2", 1) ∈ broadcast_recipients exReg "sports" (some "bob") ↔
      (("bob#2", 1) ∈ [(("bob" : String), (0 : ConnId)), ("bob#2", 1)] ∧
        ("bob#2" : String) ≠ "bob")) ∧
    (broadcast_recipients exReg "news" (some "carol") = []) := by
  constructor
  · exact (broadcast_excludes_and_tolerates_failures exReg "sports" "bob"
      (fun _ => false)).1 { users := [("bob", 0), ("bob#2", 1)], messages := [] }
      rfl ("bob#2", 1)
  · decide

/-- C7: a frame whose text is exactly `/list` makes the server respond only
to the requester with `{"active_topics": [...]}` listing, for every topic
currently in the registry, the string `"<name> (<count> users)"` with its
current member count; nothing is broadcast, no message is stored, no expiry
is scheduled, and the registry is unchanged (the session stays in the
`ACTIVE` loop). -/
theorem list_command_exact (parseJson : String → Option Json) (ts : Topics)
    (topic username : String) (now : Nat) (freshId : String)
    (msg_text : String) (h : msg_text = "/list") :
    handleFrame parseJson ts topic username msg_text now freshId =
      (ts, [.sendSelf (.activeTopics (ts.map fun p =>
        p.1 ++ " (" ++ Nat.repr p.2.users.length ++ " users)"))]) := by
  subst h
  have hs : pyStrip "/list" = "/list" := rfl
  simp [handleFrame, hs]

/-- C7 witness: `/list` against `exReg` answers with the two topic lines
and changes nothing. -/
theorem list_command_exact_witness :
    handleFrame (fun _ => none) exReg "sports" "bob" "/list" 100 "id1" =
      (exReg, [.sendSelf (.activeTopics ["sports (2 users)", "news (1 users)"])]) := by
  rw [list_command_exact (fun _ => none) exReg "sports" "bob" 100 "id1" "/list" rfl]
  decide

/-- C10: any frame whose text strips (leading and trailing whitespace) to
`/list` is handled as a list request — answered only to the requester, the
registry unchanged, nothing stored, broadcast, or scheduled — so no frame
stripping to `/list` can ever be sent as a chat message. -/
theorem list_command_stripped (parseJson : String → Option Json) (ts : Topics)
    (topic username : String) (now : Nat) (freshId : String)
    (msg_text : String) (h : pyStrip msg_text = "/list") :
    handleFrame parseJson ts topic username msg_text now freshId =
      (ts, [.sendSelf (.activeTopics (ts.map fun p =>
        p.1 ++ " (" ++ Nat.repr p.2.users.length ++ " users)"))]) := by
  simp [handleFrame, h]

/-- C10 witness: the frame `"  /list "` is treated as the list command. -/
theorem list_command_stripped_witness :
    handleFrame (fun _ => none) exReg "sports" "bob" "  /list " 100 "id1" =
      (exReg, [.sendSelf (.activeTopics ["sports (2 users)", "news (1 users)"])]) := by
  rw [list_command_stripped (fun _ => none) exReg "sports" "bob" 100 "id1" "  /list "
    (by decide)]
  decide

/-- C8: an ACTIVE frame that parses as JSON but is not an object with a
`message` field makes the server send, only to the sender, the error frame
with the exact text `JSON payload must contain (quote)message(quote) field`;
no message is created, nothing is broadcast or scheduled, and the registry
is unchanged (the session stays in the `ACTIVE` loop). -/
theorem json_without_message_field (parseJson : String → Option Json)
    (ts : Topics) (topic username msg_text : String) (now : Nat)
    (freshId : String) (j : Json)
    (h1 : pyStrip msg_text ≠ "/list")
    (h2 : parseJson msg_text = some j)
    (h3 : getMessageField j = none) :
    handleFrame parseJson ts topic username msg_text now freshId =
      (ts, [.sendSelf (.errorMsg "JSON payload must contain \x27message\x27 field")]) := by
  simp [handleFrame, h1, h2, h3]

/-- C8 witness: the frame `{}` (parsing to an empty JSON object) draws the
error frame and changes nothing. -/
theorem json_without_message_field_witness :
    handleFrame (fun s => if s = "\x7b\x7d" then some (.obj []) else none)
      exReg "sports" "bob" "\x7b\x7d" 100 "id1" =
      (exReg, [.sendSelf (.errorMsg "JSON payload must contain \x27message\x27 field")]) :=
  json_without_message_field _ exReg "sports" "bob" "\x7b\x7d" 100 "id1" (.obj [])
    (by decide) rfl rfl

/-- C9: an ACTIVE frame that parses to a JSON object with a `message` key
is accepted as a chat message whatever the type of the value — the handler
proceeds exactly as for a string-valued `message` — and the stored and
broadcast body is the Python `str()` rendering of that value. -/
theorem message_value_any_type (parseJson : String → Option Json) (ts : Topics)
    (topic username msg_text : String) (now : Nat) (freshId : String)
    (fields : List (String × Json)) (v : Json)
    (h1 : pyStrip msg_text ≠ "/list")
    (h2 : parseJson msg_text = some (.obj fields))
    (h3 : alookup fields "message" = some v) :
    handleFrame parseJson ts topic username msg_text now freshId =
      sendChat ts topic username (pyStr v) now freshId := by
  simp [handleFrame, h1, h2, getMessageField, h3]

/-- C9 witness: `{"message": 5}` is accepted and its body is `str(5) = "5"`;
`{"message": null}` is accepted and its body is `str(None) = "None"`. -/
theorem message_value_any_type_witness :
    handleFrame (fun s => if s = "\x7b\"message\": 5\x7d" then
        some (.obj [("message", .num 5)]) else none)
      exReg "sports" "bob" "\x7b\"message\": 5\x7d" 100 "id1" =
      sendChat exReg "sports" "bob" "5" 100 "id1" ∧
    handleFrame (fun s => if s = "\x7b\"message\": null\x7d" then
        some (.obj [("message", .null)]) else none)
      exReg "sports" "bob" "\x7b\"message\": null\x7d" 100 "id1" =
      sendChat exReg "sports" "bob" "None" 100 "id1" := by
  constructor
  · rw [message_value_any_type _ exReg "sports" "bob" "\x7b\"message\": 5\x7d" 100 "id1"
      [("message", .num 5)] (.num 5) (by decide) rfl rfl]
    simp [pyStr, pyRepr]
    rfl
  · rw [message_value_any_type _ exReg "sports" "bob" "\x7b\"message\": null\x7d" 100 "id1"
      [("message", .null)] .null (by decide) rfl rfl]
    simp [pyStr, pyRepr]

/-- C2 (code bug): the cleanup guard `if topic and username:` uses Python
truthiness, so a session whose join handshake successfully established the
topic/username pair `("", "bob")` — the join validation accepts any string,
including the empty string — is not cleaned up on disconnect: the member
stays in the registry and no leave notice is broadcast, contradicting the
required removal-plus-notice for every established pair.  For an
established non-empty pair the cleanup does remove the member and
broadcasts the leave notice with no exclusion. -/
theorem cleanup_skipped_for_empty_topic :
    sessionCleanup exEmptyNameReg (some "") (some "bob") 100 = (exEmptyNameReg, []) ∧
    remove_user_from_topic exEmptyNameReg "" "bob" ≠ exEmptyNameReg ∧
    sessionCleanup exReg (some "sports") (some "bob") 100 =
      (remove_user_from_topic exReg "sports" "bob",
       [.bcast "sports" (.systemNotice "bob left the topic" 100) none]) ∧
    sessionCleanup exReg none none 100 = (exReg, []) := by
  refine ⟨by decide, by decide, ?_, by decide⟩
  simp [sessionCleanup]

/-- C6: `expire_message` fires after the fixed delay of
`MESSAGE_EXPIRY_SECONDS = 30` seconds and removes exactly the messages with
the given id from the topic when the topic still exists (other topics and
the member set untouched); if the topic is gone, or no message with that id
exists, it is a silent no-op leaving the whole state unchanged.  Hence a
message created at `t0`, with its expiry scheduled for `t0 + 30`, is still
stored at `t0 + 29` and no longer stored at `t0 + 31`, given the topic
still exists. -/
theorem expire_message_spec :
    MESSAGE_EXPIRY_SECONDS = 30 ∧
    (∀ ts topic mid, alookup ts topic = none → expire_message ts topic mid = ts) ∧
    (∀ ts topic mid e, alookup ts topic = some e →
      alookup (expire_message ts topic mid) topic =
        some { e with messages := e.messages.filter (fun m => m.id ≠ mid) } ∧
      ∀ t2, t2 ≠ topic → alookup (expire_message ts topic mid) t2 = alookup ts t2) ∧
    (∀ ts topic mid e, alookup ts topic = some e →
      (∀ m ∈ e.messages, m.id ≠ mid) → expire_message ts topic mid = ts) ∧
    (∀ (t0 : Nat) (ts : Topics) (topic : String) (m : Msg) (e : TopicEntry),
      alookup ts topic = some e → m ∈ e.messages →
      runTasksUpTo (t0 + 29) [⟨t0 + MESSAGE_EXPIRY_SECONDS, topic, m.id⟩] ts = ts ∧
      ∀ e2, alookup (runTasksUpTo (t0 + 31)
          [⟨t0 + MESSAGE_EXPIRY_SECONDS, topic, m.id⟩] ts) topic = some e2 →
        ∀ m2 ∈ e2.messages, m2.id ≠ m.id) := by
  have habsent : ∀ ts topic mid, alookup ts topic = none →
      expire_message ts topic mid = ts := by
    intro ts topic mid h
    simp [expire_message, h]
  have hpresent : ∀ ts topic mid e, alookup ts topic = some e →
      alookup (expire_message ts topic mid) topic =
        some { e with messages := e.messages.filter (fun m => m.id ≠ mid) } ∧
      ∀ t2, t2 ≠ topic → alookup (expire_message ts topic mid) t2 = alookup ts t2 := by
    intro ts topic mid e he
    constructor
    · rw [show expire_message ts topic mid = dmodify ts topic
        (fun e => { e with
          messages := e.messages.filter (fun m => m.id ≠ mid) }) from by
          simp [expire_message, he]]
      rw [alookup_dmodify_self, he]
      rfl
    · intro t2 h2
      rw [show expire_message ts topic mid = dmodify ts topic
        (fun e => { e with
          messages := e.messages.filter (fun m => m.id ≠ mid) }) from by
          simp [expire_message, he]]
      exact alookup_dmodify_ne ts _ h2
  refine ⟨rfl, habsent, hpresent, ?_, ?_⟩
  · intro ts topic mid e he hnone
    rw [show expire_message ts topic mid = dmodify ts topic
      (fun e => { e with
        messages := e.messages.filter (fun m => m.id ≠ mid) }) from by
        simp [expire_message, he]]
    apply dmodify_eq_self
    intro v hv
    rw [hv] at he
    have hve : v = e := Option.some.inj he
    subst hve
    have hfilter : v.messages.filter (fun m => m.id ≠ mid) = v.messages := by
      rw [List.filter_eq_self]
      intro m hm
      simpa using hnone m hm
    show { v with messages := v.messages.filter (fun m => m.id ≠ mid) } = v
    rw [hfilter]
  · intro t0 ts topic m e he hm
    have hnot : ¬ (t0 + MESSAGE_EXPIRY_SECONDS ≤ t0 + 29) := by
      simp [MESSAGE_EXPIRY_SECONDS]
    have hyes : t0 + MESSAGE_EXPIRY_SECONDS ≤ t0 + 31 := by
      simp [MESSAGE_EXPIRY_SECONDS]
    constructor
    · simp [runTasksUpTo, hnot]
    · intro e2 he2 m2 hm2
      simp only [runTasksUpTo, List.foldl_cons, List.foldl_nil, if_pos hyes] at he2
      have := (hpresent ts topic m.id e he).1
      rw [he2] at this
      have he2eq : e2 = { e with messages := e.messages.filter (fun x => x.id ≠ m.id) } :=
        Option.some.inj this
      subst he2eq
      simp only [List.mem_filter] at hm2
      simpa using hm2.2

/-- C6 witness: in `exMsgReg` the message `"m1"` (created at 50, expiring
at 80) is still stored at time 79 and gone at time 81; expiring it in a
registry where its topic is absent is a no-op. -/
theorem expire_message_spec_witness :
    runTasksUpTo 79 [⟨50 + MESSAGE_EXPIRY_SECONDS, "sports", "m1"⟩] exMsgReg = exMsgReg ∧
    (∀ e2, alookup (runTasksUpTo 81
        [⟨50 + MESSAGE_EXPIRY_SECONDS, "sports", "m1"⟩] exMsgReg) "sports" = some e2 →
      ∀ m2 ∈ e2.messages, m2.id ≠ "m1") ∧
    expire_message exAliceReg "sports" "m1" = exAliceReg := by
  have h := expire_message_spec.2.2.2.2 50 exMsgReg "sports" exMsg
    { users := [("bob", 0)], messages := [exMsg] } rfl (by decide)
  exact ⟨h.1, h.2, expire_message_spec.2.1 exAliceReg "sports" "m1" rfl⟩

/-- C3 (amended): if the topic is absent or the requested name is not a
current member name, `ensure_unique_username` returns the requested name
unchanged; otherwise it returns `requested#n` for the numerically smallest
suffix `n ≥ 2` such that `requested#n` is not a current member name (the
first free candidate in the order `requested#2`, `requested#3`, …, not the
lexicographically smallest free candidate string). -/
theorem ensure_unique_username_spec (ts : Topics) (topic base : String) :
    (alookup ts topic = none → ensure_unique_username ts topic base = base) ∧
    (∀ e, alookup ts topic = some e →
      (base ∉ dkeys e.users → ensure_unique_username ts topic base = base) ∧
      (base ∈ dkeys e.users →
        ∃ n, 2 ≤ n ∧ ensure_unique_username ts topic base = candidate base n ∧
          candidate base n ∉ dkeys e.users ∧
          ∀ m, 2 ≤ m → m < n → candidate base m ∈ dkeys e.users)) := by
  constructor
  · intro h
    simp [ensure_unique_username, h]
  · intro e he
    constructor
    · intro hmem
      simp [ensure_unique_username, he, hmem]
    · intro hmem
      have hex : ∃ k, k ≤ (dkeys e.users).length + 1 ∧
          candidate base (2 + k) ∉ dkeys e.users := by
        obtain ⟨k, hk, hfree⟩ := exists_free_candidate (dkeys e.users) base 2
        exact ⟨k, by omega, hfree⟩
      obtain ⟨h1, h2, h3⟩ := findFrom_spec (dkeys e.users) base
        ((dkeys e.users).length + 1) 2 hex
      refine ⟨findFrom (dkeys e.users) base 2 ((dkeys e.users).length + 1),
        h2, ?_, h1, fun m hm1 hm2 => h3 m hm1 hm2⟩
      simp [ensure_unique_username, he, hmem]

/-- C3 counter-example: with members `alice` and `alice#2`, the code
returns `alice#3`, although `alice#10` is also an unused candidate and is
lexicographically smaller than `alice#3`; so the result is the numerically
first free candidate, not the lexicographically first. -/
theorem ensure_unique_username_not_lex_first :
    ensure_unique_username exAliceReg "t" "alice" = "alice#3" ∧
    candidate "alice" 10 = "alice#10" ∧
    "alice#10" ∉ dkeys exAliceEntry.users ∧
    "alice#10" < "alice#3" := by
  refine ⟨by decide, by decide, by decide, ?_⟩
  rw [String.lt_iff_toList_lt]
  decide

/-- C3 witness: a second `alice` in a topic resolves to `alice#2`, a third
to `alice#3`; the same name in a different topic, or an unused name, stays
unchanged; and the returned suffix is the least free one. -/
theorem ensure_unique_username_spec_witness :
    ensure_unique_username exAliceReg "other" "alice" = "alice" ∧
    ensure_unique_username exAliceReg1 "t" "alice" = "alice#2" ∧
    ensure_unique_username exAliceReg "t" "alice" = "alice#3" ∧
    ensure_unique_username exAliceReg "t" "bob" = "bob" ∧
    (∃ n, 2 ≤ n ∧
      ensure_unique_username exAliceReg "t" "alice" = candidate "alice" n ∧
      candidate "alice" n ∉ dkeys exAliceEntry.users ∧
      ∀ m, 2 ≤ m → m < n → candidate "alice" m ∈ dkeys exAliceEntry.users) := by
  refine ⟨(ensure_unique_username_spec exAliceReg "other" "alice").1 rfl,
    by decide, by decide,
    ((ensure_unique_username_spec exAliceReg "t" "bob").2 exAliceEntry rfl).1
      (by decide),
    ((ensure_unique_username_spec exAliceReg "t" "alice").2 exAliceEntry rfl).2
      (by decide)⟩

/-- C4: an ACTIVE member sending a message-producing frame (a JSON object
with a `message` field, or non-JSON text taken as the body) appends a
message carrying the fresh id and the current timestamp to its topic (no
other topic touched), broadcasts the payload to the topic excluding the
sender (so it is not echoed back), sends the sender a delivery
acknowledgment carrying the same id, and schedules expiry of that id after
`MESSAGE_EXPIRY_SECONDS`; under freshness of the id, the stored message
with that id is exactly the new one. -/
theorem chat_message_flow (parseJson : String → Option Json) (ts : Topics)
    (topic username msg_text body : String) (now : Nat) (freshId : String)
    (e : TopicEntry)
    (hmember : alookup ts topic = some e)
    (hnotlist : pyStrip msg_text ≠ "/list")
    (hcase : (∃ fields v, parseJson msg_text = some (.obj fields) ∧
                alookup fields "message" = some v ∧ body = pyStr v) ∨
             (parseJson msg_text = none ∧ body = msg_text))
    (hfresh : ∀ m ∈ e.messages, m.id ≠ freshId) :
    alookup (handleFrame parseJson ts topic username msg_text now freshId).1 topic =
      some { e with messages := e.messages ++
        [{ id := freshId, username := username, message := body, timestamp := now }] } ∧
    (∀ t2, t2 ≠ topic →
      alookup (handleFrame parseJson ts topic username msg_text now freshId).1 t2 =
        alookup ts t2) ∧
    (handleFrame parseJson ts topic username msg_text now freshId).2 =
      [.bcast topic (.chat username body now freshId) (some username),
       .sendSelf (.delivered freshId now),
       .schedule topic freshId MESSAGE_EXPIRY_SECONDS] ∧
    (∀ p ∈ broadcast_recipients
        (handleFrame parseJson ts topic username msg_text now freshId).1 topic
        (some username), p.1 ≠ username) ∧
    (∀ e2, alookup (handleFrame parseJson ts topic username msg_text now freshId).1
        topic = some e2 → ∀ m ∈ e2.messages, m.id = freshId →
      m = { id := freshId, username := username, message := body, timestamp := now }) := by
  have hreduce : handleFrame parseJson ts topic username msg_text now freshId =
      sendChat ts topic username body now freshId := by
    rcases hcase with ⟨fields, v, hp, hf, hb⟩ | ⟨hp, hb⟩
    · subst hb
      simp [handleFrame, hnotlist, hp, getMessageField, hf]
    · subst hb
      simp [handleFrame, hnotlist, hp]
  rw [hreduce]
  have hstate : (sendChat ts topic username body now freshId).1 =
      dmodify ts topic (fun e => { e with messages := e.messages ++
        [{ id := freshId, username := username, message := body, timestamp := now }] }) := by
    simp [sendChat, hmember]
  have hlook : alookup (sendChat ts topic username body now freshId).1 topic =
      some { e with messages := e.messages ++
        [{ id := freshId, username := username, message := body, timestamp := now }] } := by
    rw [hstate, alookup_dmodify_self, hmember]
    rfl
  refine ⟨hlook, ?_, rfl, ?_, ?_⟩
  · intro t2 h2
    rw [hstate]
    exact alookup_dmodify_ne ts _ h2
  · intro p hp
    rcases h : alookup (sendChat ts topic username body now freshId).1 topic with _ | e2
    · simp [broadcast_recipients, h] at hp
    · simp [broadcast_recipients, h, List.mem_filter] at hp
      exact hp.2
  · intro e2 he2 m hm hid
    rw [hlook] at he2
    have he2eq : e2 = { e with messages := e.messages ++
        [{ id := freshId, username := username, message := body, timestamp := now }] } :=
      (Option.some.inj he2).symm
    subst he2eq
    simp only [List.mem_append, List.mem_singleton] at hm
    rcases hm with hm | hm
    · exact absurd hid (hfresh m hm)
    · exact hm

/-- C4 witness: `"bob"` sending the raw text `"hi"` into `"sports"` stores
it, broadcasts it to the others excluding `"bob"`, acknowledges with the
same id, and schedules its expiry. -/
theorem chat_message_flow_witness :
    (handleFrame (fun _ => none) exReg "sports" "bob" "hi" 100 "id1").2 =
      [.bcast "sports" (.chat "bob" "hi" 100 "id1") (some "bob"),
       .sendSelf (.delivered "id1" 100),
       .schedule "sports" "id1" 30] ∧
    alookup (handleFrame (fun _ => none) exReg "sports" "bob" "hi" 100 "id1").1
        "sports" =
      some { users := [("bob", 0), ("bob#2", 1)],
             messages := [{ id := "id1", username := "bob", message := "hi",
                            timestamp := 100 }] } := by
  have h := chat_message_flow (fun _ => none) exReg "sports" "bob" "hi" "hi" 100 "id1"
    { users := [("bob", 0), ("bob#2", 1)], messages := [] }
    rfl (by decide) (Or.inr ⟨rfl, rfl⟩) (by decide)
  exact ⟨h.2.2.1, h.1⟩

theorem mem_of_mem_derase {β : Type _} {l : List (String × β)} {k : String}
    {p : String × β} (h : p ∈ derase l k) : p ∈ l := by
  induction l with
  | nil => simp [derase] at h
  | cons q rest ih =>
    obtain ⟨k', v'⟩ := q
    by_cases hk : k' = k
    · subst hk
      rw [show derase ((k', v') :: rest) k' = rest from by simp [derase]] at h
      exact List.mem_cons_of_mem _ h
    · rw [show derase ((k', v') :: rest) k = (k', v') :: derase rest k from by
        simp [derase, hk]] at h
      rcases List.mem_cons.mp h with rfl | h2
      · exact List.mem_cons_self _ _
      · exact List.mem_cons_of_mem _ (ih h2)

/-- C1: the registry invariant — `topics` is a well-formed dict and a topic
is present exactly when it has at least one member — is preserved by every
registry-mutating operation: `add_user_to_topic` creates the topic only
together with inserting the member (the topic is present afterwards and
holds the member, no other topic is touched), `remove_user_from_topic`
deletes the topic exactly when its last member is removed, and
`expire_message` never changes membership. -/
theorem registry_topic_iff_members (ts : Topics) (t u : String) (w : ConnId)
    (mid : String) (hinv : registryInv ts) :
    registryInv (add_user_to_topic ts t u w) ∧
    (∃ e, alookup (add_user_to_topic ts t u w) t = some e ∧
      alookup e.users u = some w) ∧
    (∀ t2, t2 ≠ t → alookup (add_user_to_topic ts t u w) t2 = alookup ts t2) ∧
    registryInv (remove_user_from_topic ts t u) ∧
    (alookup (remove_user_from_topic ts t u) t = none ↔
      alookup ts t = none ∨ ∃ e, alookup ts t = some e ∧ derase e.users u = []) ∧
    (∀ t2, t2 ≠ t → alookup (remove_user_from_topic ts t u) t2 = alookup ts t2) ∧
    registryInv (expire_message ts t mid) := by
  obtain ⟨hnd, hne⟩ := hinv
  have hne2 : ∀ t2 e2, alookup ts t2 = some e2 → e2.users ≠ [] := by
    intro t2 e2 h2
    exact hne (t2, e2) (mem_of_alookup h2)
  -- the common shape of the add case: whatever the pre-state `ts1`, the
  -- entry at `t` ends with a freshly inserted member, and entries away from
  -- `t` are untouched
  have hadd : ∀ (ts1 : Topics), dictInv ts1 →
      (∀ t2 e2, t2 ≠ t → alookup ts1 t2 = some e2 → e2.users ≠ []) →
      registryInv (dmodify ts1 t (fun e => { e with users := dinsert e.users u w })) := by
    intro ts1 hnd1 hne1
    refine ⟨dictInv_dmodify t _ hnd1, ?_⟩
    intro p hp
    have hlp := alookup_of_mem (dictInv_dmodify t _ hnd1) hp
    by_cases hpt : p.1 = t
    · rw [hpt, alookup_dmodify_self] at hlp
      rcases h0 : alookup ts1 t with _ | e0
      · rw [h0] at hlp
        simp at hlp
      · rw [h0] at hlp
        simp only [Option.map_some'] at hlp
        have hp2 := Option.some.inj hlp
        rw [← hp2]
        exact dinsert_ne_nil _ _ _
    · rw [alookup_dmodify_ne ts1 _ hpt] at hlp
      exact hne1 p.1 p.2 hpt hlp
  have hinv_add : registryInv (add_user_to_topic ts t u w) := by
    by_cases hs : (alookup ts t).isSome
    · rw [show add_user_to_topic ts t u w =
        dmodify ts t (fun e => { e with users := dinsert e.users u w }) from by
          simp [add_user_to_topic, hs]]
      exact hadd ts hnd (fun t2 e2 _ h2 => hne2 t2 e2 h2)
    · rw [show add_user_to_topic ts t u w =
        dmodify (dinsert ts t { users := [], messages := [] }) t
          (fun e => { e with users := dinsert e.users u w }) from by
          simp [add_user_to_topic, hs]]
      refine hadd _ (dictInv_dinsert t _ hnd) ?_
      intro t2 e2 ht2 h2
      rw [alookup_dinsert_ne ts _ ht2] at h2
      exact hne2 t2 e2 h2
  have hmem_add : ∃ e, alookup (add_user_to_topic ts t u w) t = some e ∧
      alookup e.users u = some w := by
    by_cases hs : (alookup ts t).isSome
    · obtain ⟨e0, he0⟩ := Option.isSome_iff_exists.mp hs
      refine ⟨{ e0 with users := dinsert e0.users u w }, ?_, alookup_dinsert_self _ _ _⟩
      rw [show add_user_to_topic ts t u w =
        dmodify ts t (fun e => { e with users := dinsert e.users u w }) from by
          simp [add_user_to_topic, hs]]
      rw [alookup_dmodify_self, he0]
      rfl
    · refine ⟨{ users := dinsert [] u w, messages := [] }, ?_, alookup_dinsert_self _ _ _⟩
      rw [show add_user_to_topic ts t u w =
        dmodify (dinsert ts t { users := [], messages := [] }) t
          (fun e => { e with users := dinsert e.users u w }) from by
          simp [add_user_to_topic, hs]]
      rw [alookup_dmodify_self, alookup_dinsert_self]
      rfl
  have hother_add : ∀ t2, t2 ≠ t →
      alookup (add_user_to_topic ts t u w) t2 = alookup ts t2 := by
    intro t2 ht2
    by_cases hs : (alookup ts t).isSome
    · rw [show add_user_to_topic ts t u w =
        dmodify ts t (fun e => { e with users := dinsert e.users u w }) from by
          simp [add_user_to_topic, hs]]
      exact alookup_dmodify_ne ts _ ht2
    · rw [show add_user_to_topic ts t u w =
        dmodify (dinsert ts t { users := [], messages := [] }) t
          (fun e => { e with users := dinsert e.users u w }) from by
          simp [add_user_to_topic, hs]]
      rw [alookup_dmodify_ne _ _ ht2]
      exact alookup_dinsert_ne ts _ ht2
  refine ⟨hinv_add, hmem_add, hother_add, ?_, ?_, ?_, ?_⟩
  · -- remove preserves the invariant
    rcases hr : alookup ts t with _ | e
    · rw [show remove_user_from_topic ts t u = ts from by
        simp [remove_user_from_topic, hr]]
      exact ⟨hnd, hne⟩
    · by_cases hemp : (derase e.users u).isEmpty
      · rw [show remove_user_from_topic ts t u = derase ts t from by
          simp [remove_user_from_topic, hr, hemp]]
        refine ⟨dictInv_derase t hnd, ?_⟩
        intro p hp
        exact hne p (mem_of_mem_derase hp)
      · rw [show remove_user_from_topic ts t u =
          dmodify ts t (fun e2 => { e2 with users := derase e.users u }) from by
            simp [remove_user_from_topic, hr, hemp]]
        refine ⟨dictInv_dmodify t _ hnd, ?_⟩
        intro p hp
        have hlp := alookup_of_mem (dictInv_dmodify t _ hnd) hp
        by_cases hpt : p.1 = t
        · rw [hpt, alookup_dmodify_self, hr] at hlp
          simp only [Option.map_some'] at hlp
          have hp2 := Option.some.inj hlp
          rw [← hp2]
          simpa [List.isEmpty_iff] using hemp
        · rw [alookup_dmodify_ne ts _ hpt] at hlp
          exact hne2 p.1 p.2 hlp
  · -- the topic is deleted exactly when its last member was removed
    rcases hr : alookup ts t with _ | e
    · rw [show remove_user_from_topic ts t u = ts from by
        simp [remove_user_from_topic, hr]]
      simp [hr]
    · by_cases hemp : (derase e.users u).isEmpty
      · rw [show remove_user_from_topic ts t u = derase ts t from by
          simp [remove_user_from_topic, hr, hemp]]
        simp only [alookup_derase_self t hnd, hr, true_iff]
        exact Or.inr ⟨e, rfl, List.isEmpty_iff.mp hemp⟩
      · rw [show remove_user_from_topic ts t u =
          dmodify ts t (fun e2 => { e2 with users := derase e.users u }) from by
            simp [remove_user_from_topic, hr, hemp]]
        rw [alookup_dmodify_self, hr]
        simp only [Option.map_some']
        constructor
        · intro hcon
          exact absurd hcon (by simp)
        · rintro (hcon | ⟨e2, he2, hd2⟩)
          · exact absurd hcon (by simp)
          · have he2e : e = e2 := Option.some.inj he2
            subst he2e
            exact absurd hd2 (by simpa [List.isEmpty_iff] using hemp)
  · -- other topics are untouched by remove
    intro t2 ht2
    rcases hr : alookup ts t with _ | e
    · rw [show remove_user_from_topic ts t u = ts from by
        simp [remove_user_from_topic, hr]]
    · by_cases hemp : (derase e.users u).isEmpty
      · rw [show remove_user_from_topic ts t u = derase ts t from by
          simp [remove_user_from_topic, hr, hemp]]
        exact alookup_derase_ne ts ht2
      · rw [show remove_user_from_topic ts t u =
          dmodify ts t (fun e2 => { e2 with users := derase e.users u }) from by
            simp [remove_user_from_topic, hr, hemp]]
        exact alookup_dmodify_ne ts _ ht2
  · -- expiry never changes membership
    rcases hr : alookup ts t with _ | e
    · rw [show expire_message ts t mid = ts from by simp [expire_message, hr]]
      exact ⟨hnd, hne⟩
    · rw [show expire_message ts t mid = dmodify ts t
        (fun e => { e with messages := e.messages.filter (fun m => m.id ≠ mid) }) from by
          simp [expire_message, hr]]
      refine ⟨dictInv_dmodify t _ hnd, ?_⟩
      intro p hp
      have hlp := alookup_of_mem (dictInv_dmodify t _ hnd) hp
      by_cases hpt : p.1 = t
      · rw [hpt, alookup_dmodify_self, hr] at hlp
        simp only [Option.map_some'] at hlp
        have hp2 := Option.some.inj hlp
        rw [← hp2]
        exact hne2 t e hr
      · rw [alookup_dmodify_ne ts _ hpt] at hlp
        exact hne2 p.1 p.2 hlp

/-- C1 witness: on `exReg` the invariant is preserved by an add, and
removing the last member of `"news"` deletes the topic. -/
theorem registry_topic_iff_members_witness :
    registryInv (add_user_to_topic exReg "news" "dave" 3) ∧
    (alookup (remove_user_from_topic exReg "news" "carol") "news" = none ↔
      alookup exReg "news" = none ∨
      ∃ e, alookup exReg "news" = some e ∧ derase e.users "carol" = []) :=
  ⟨(registry_topic_iff_members exReg "news" "dave" 3 "m"
     ⟨show (dkeys exReg).Nodup by decide, by decide⟩).1,
   (registry_topic_iff_members exReg "news" "carol" 3 "m"
     ⟨show (dkeys exReg).Nodup by decide, by decide⟩).2.2.2.2.1⟩

end Broker
